/-
Verification of the template-environment glue module `common/jinja2.py`
(GOV.UK frontend Jinja compatibility shims for a Django application).

The embedding models:
  * `GovukFrontendExtension.preprocess` — the Nunjucks-to-Jinja source
    preprocessor: a `.njk` filename gate, delegation to the upstream
    (third-party) `NunjucksExtension.preprocess`, and three textual
    rewrite rules (two Python `re.sub` calls and one `str.replace` call);
  * `GovukFrontendEnvironment.__init__` — the `extensions` keyword handling;
  * `break_words`, `query_transform` — template helper functions;
  * `environment` — the environment builder and its filter/global tables.

Python's `re.sub`, for the specific patterns used by the source (ordered
alternations of fixed-length literal strings in which an unescaped `.`
metacharacter matches any character except a newline), is embedded by an
executable scanner `subScan`: it walks the text left to right, at each
position tries the alternatives in order, replaces the first match and
resumes after it, exactly as Python's regex engine does for these
backtracking-free patterns.  `str.replace` is the same scanner with a
single all-literal alternative and a constant replacement.
-/
import Mathlib

/-- A pattern character: `some c` matches exactly `c`; `none` is the unescaped
`.` regex metacharacter, matching any character except a newline. -/
abbrev PatChar := Option Char

/-- Does the pattern character accept the text character? -/
def charOk : PatChar → Char → Bool
  | none, c => decide (c ≠ '\n')
  | some p, c => decide (p = c)

/-- One alternative of a substitution rule: a fixed-length pattern and the
replacement builder, fed with the exact matched text (this is how the
backreferences in the Python replacement templates are computed). -/
structure RuleAlt where
  pat : List PatChar
  mkRepl : List Char → List Char

/-- Try the alternatives in order at the head of `s` (Python's regex engine
tries the branches of an alternation left to right and commits to the first
one that lets the whole pattern match; every pattern here is fixed-length, so
there is no further backtracking).  On success, return the match length and
the replacement text. -/
def tryAlt (a : List PatChar) (s : List Char) : Bool :=
  (List.range a.length).all fun k =>
    match s[k]?, a[k]? with
    | some c, some pc => charOk pc c
    | _, _ => false

def tryMatch (alts : List RuleAlt) (s : List Char) : Option (Nat × List Char) :=
  match alts with
  | [] => none
  | a :: rest =>
    if tryAlt a.pat s then some (a.pat.length, a.mkRepl (s.take a.pat.length))
    else tryMatch rest s

/-- Fuelled left-to-right scan-and-substitute, the semantics of `re.sub` (and
of `str.replace`) for the rules of this module: at each position try to match;
on a match emit the replacement and resume after the matched text, otherwise
emit the character and move one position right.  The fuel is only a structural
termination device; `subScan` supplies enough of it. -/
def subScanF (alts : List RuleAlt) : Nat → List Char → List Char
  | 0, _ => []
  | _, [] => []
  | fuel + 1, c :: rest =>
    match tryMatch alts (c :: rest) with
    | some (len, repl) => repl ++ subScanF alts fuel (rest.drop (len - 1))
    | none => c :: subScanF alts fuel rest

def subScan (alts : List RuleAlt) (s : List Char) : List Char :=
  subScanF alts s.length s

/-- All-literal pattern for a string. -/
def litPat (s : String) : List PatChar := s.toList.map some

/-- Rule 1, `re.sub(r"(for attribute, value in )(" + r"|".join(iterated_objects)
+ r")", r"\1(\2|default({}))", source)` with `iterated_objects =
[r"item.attributes"]`: a single alternative whose `.` is an unescaped wildcard;
group 1 is the 24-character literal context, group 2 the 15 matched characters
after it. -/
def rule1Alts : List RuleAlt :=
  [⟨litPat "for attribute, value in item" ++ [none] ++ litPat "attributes",
    fun m => m.take 24 ++ ('(' :: m.drop 24) ++ ("|default(\x7b\x7d))").toList⟩]

/-- The replacement builder shared by the rule-2 alternatives: the matched text
is `ALT` plus the escaped trailing dot, and the Python template
`r"(\1|default({}))."` wraps group 1 (the matched text without that dot). -/
def rule2Repl (m : List Char) : List Char :=
  ('(' :: m.dropLast) ++ ("|default(\x7b\x7d)).").toList

/-- One rule-2 alternative: the allow-list entry (with its unescaped inner dot
as a wildcard) followed by the escaped literal `\.`. -/
def nestedAlt (a : String) (b : String) : RuleAlt :=
  ⟨litPat a ++ [none] ++ litPat b ++ [some '.'], rule2Repl⟩

/-- Rule 2, `re.sub(r"(" + r"|".join(nested_attrs) + r")\.",
r"(\1|default({})).", source)`, with the ten allow-list entries in source
order.  The dot inside each entry is an unescaped metacharacter; only the
final dot is escaped. -/
def rule2Alts : List RuleAlt :=
  [nestedAlt "cell" "attributes",
   nestedAlt "item" "conditional",
   nestedAlt "item" "hint",
   nestedAlt "item" "label",
   nestedAlt "params" "attributes",
   nestedAlt "params" "countMessage",
   nestedAlt "params" "formGroup",
   nestedAlt "params" "legend",
   nestedAlt "params" "prefix",
   nestedAlt "params" "suffix"]

/-- The literal operand of the rule-3 `str.replace` call. -/
def plusConcat : List Char := "+ (params.maxlength or params.maxwords) +".toList

/-- The rule-3 replacement text. -/
def tildeConcat : List Char := "~ (params.maxlength or params.maxwords) ~".toList

/-- Rule 3, `source.replace("+ (params.maxlength or params.maxwords) +",
"~ (params.maxlength or params.maxwords) ~")`: a single all-literal
alternative with a constant replacement. -/
def rule3Alts : List RuleAlt :=
  [⟨plusConcat.map some, fun _ => tildeConcat⟩]

/-- The three substitution rules applied in source order. -/
def applyRules (s : List Char) : List Char :=
  subScan rule3Alts (subScan rule2Alts (subScan rule1Alts s))

/-- The `filename and filename.endswith(".njk")` test (a `None` or empty
filename is falsy; an empty string cannot end in `.njk` either). -/
def njkGate : Option (List Char) → Bool
  | none => false
  | some f => List.isSuffixOf ".njk".toList f

/-- `GovukFrontendExtension.preprocess`, parametric in the upstream
(third-party, out of scope) `NunjucksExtension.preprocess`, called `sp` here:
on a `.njk` filename, delegate to `sp` and then apply the three rewrite rules;
otherwise return the source unmodified. -/
def preprocess (sp : List Char → List Char → Option (List Char) → List Char)
    (source : List Char) (name : List Char) (filename : Option (List Char)) :
    List Char :=
  if njkGate filename then applyRules (sp source name filename) else source

/-- Modelled from the spec: the upstream `NunjucksExtension.preprocess` of the
third-party `govuk_frontend_jinja` package is not part of this repository.
Per the spec ("If the path does not end with the foreign-dialect file
extension, return the source unmodified" and "preprocessing rewrite rules
apply only to source files whose path ends in the foreign-dialect extension
(`.njk`); all other template sources pass through only the baseline delegation
step"), it applies an opaque dialect translation `t` to `.njk` sources and
returns every other source unmodified. -/
def superPreprocess (t : List Char → List Char) (source : List Char)
    (_name : List Char) (filename : Option (List Char)) : List Char :=
  if njkGate filename then t source else source

/-- `s` has the text `W` starting at position `i`. -/
def containsAt (s W : List Char) (i : Nat) : Prop :=
  ∀ j < W.length, s[i + j]? = W[j]?

/-- `s` has `W` as a contiguous substring.  (The bound keeps the definition
decidable; an occurrence of a nonempty `W` always starts below `s.length`.) -/
def ContainsSub (W s : List Char) : Prop :=
  ∃ i < s.length + 1, containsAt s W i

instance (s W : List Char) (i : Nat) : Decidable (containsAt s W i) := by
  unfold containsAt; infer_instance

instance (W s : List Char) : Decidable (ContainsSub W s) := by
  unfold ContainsSub; infer_instance

theorem containsAt_cons_succ {c : Char} {s W : List Char} {i : Nat}
    (h : containsAt s W i) : containsAt (c :: s) W (i + 1) := by
  intro j hj
  have : i + 1 + j = (i + j) + 1 := by omega
  rw [this, List.getElem?_cons_succ]
  exact h j hj

theorem containsAt_of_cons_succ {c : Char} {s W : List Char} {i : Nat}
    (h : containsAt (c :: s) W (i + 1)) : containsAt s W i := by
  intro j hj
  have heq : i + 1 + j = (i + j) + 1 := by omega
  have := h j hj
  rwa [heq, List.getElem?_cons_succ] at this

theorem containsAt_append_left {A B W : List Char} {j : Nat}
    (h : containsAt B W j) : containsAt (A ++ B) W (A.length + j) := by
  intro k hk
  rw [List.getElem?_append_right (by omega), show A.length + j + k - A.length = j + k by omega]
  exact h k hk

theorem containsAt_prefix_self {W B : List Char} : containsAt (W ++ B) W 0 := by
  intro k hk
  rw [Nat.zero_add, List.getElem?_append_left hk]

theorem containsAt_drop {s W : List Char} {i d : Nat} (hd : d ≤ i)
    (h : containsAt s W i) : containsAt (s.drop d) W (i - d) := by
  intro j hj
  rw [List.getElem?_drop, show d + (i - d + j) = i + j by omega]
  exact h j hj

theorem eq_append_of_containsAt_zero {s W : List Char} (h : containsAt s W 0) :
    s = W ++ s.drop W.length := by
  apply List.ext_getElem?
  intro n
  by_cases hn : n < W.length
  · rw [List.getElem?_append_left hn]
    have := h n hn
    rw [Nat.zero_add] at this
    exact this
  · rw [List.getElem?_append_right (by omega), List.getElem?_drop]
    congr 1
    omega

theorem ContainsSub_of_containsAt {s W : List Char} {i : Nat}
    (h : containsAt s W i) : ContainsSub W s := by
  cases W with
  | nil => exact ⟨0, by omega, by intro j hj; simp at hj⟩
  | cons w W' =>
    refine ⟨i, ?_, h⟩
    have h0 := h 0 (by simp)
    rw [Nat.add_zero] at h0
    have : i < s.length := by
      by_contra hge
      rw [List.getElem?_eq_none (by omega)] at h0
      simp at h0
    omega

theorem ContainsSub.elim' {W s : List Char} (h : ContainsSub W s) :
    ∃ i, containsAt s W i := by
  obtain ⟨i, _, hi⟩ := h
  exact ⟨i, hi⟩

theorem tryAlt_true_iff {a : List PatChar} {s : List Char} :
    tryAlt a s = true ↔
      ∀ (k : Nat) (hk : k < a.length), ∃ c, s[k]? = some c ∧ charOk a[k] c = true := by
  unfold tryAlt
  rw [List.all_eq_true]
  constructor
  · intro H k hk
    have hm := H k (List.mem_range.mpr hk)
    rw [List.getElem?_eq_getElem hk] at hm
    cases hs : s[k]? with
    | none => rw [hs] at hm; simp at hm
    | some c =>
      rw [hs] at hm
      exact ⟨c, rfl, hm⟩
  · intro H k hk
    have hk' := List.mem_range.mp hk
    obtain ⟨c, hc, hok⟩ := H k hk'
    rw [hc, List.getElem?_eq_getElem hk']
    exact hok

theorem tryAlt_append_of_le {a : List PatChar} {u : List Char} (v : List Char)
    (h : a.length ≤ u.length) : tryAlt a (u ++ v) = tryAlt a u := by
  cases htu : tryAlt a u with
  | true =>
    rw [tryAlt_true_iff]
    intro k hk
    obtain ⟨c, hc, hok⟩ := tryAlt_true_iff.mp htu k hk
    exact ⟨c, by rw [List.getElem?_append_left (by omega), hc], hok⟩
  | false =>
    by_contra htuv
    rw [Bool.not_eq_false, tryAlt_true_iff] at htuv
    rw [← Bool.not_eq_true, tryAlt_true_iff] at htu
    apply htu
    intro k hk
    obtain ⟨c, hc, hok⟩ := htuv k hk
    rw [List.getElem?_append_left (by omega)] at hc
    exact ⟨c, hc, hok⟩

theorem tryAlt_false_of_clash {a : List PatChar} {u : List Char} (v : List Char)
    {k : Nat} (hk : k < a.length) (hku : k < u.length)
    (hok : charOk a[k] u[k] = false) : tryAlt a (u ++ v) = false := by
  by_contra htrue
  rw [Bool.not_eq_false] at htrue
  obtain ⟨c, hc, hcok⟩ := tryAlt_true_iff.mp htrue k hk
  rw [List.getElem?_append_left hku, List.getElem?_eq_getElem hku] at hc
  cases hc
  rw [hcok] at hok
  exact Bool.true_eq_false.mp hok

theorem tryAlt_map_some_of_containsAt {X s : List Char}
    (h : ∀ k < X.length, s[k]? = X[k]?) : tryAlt (X.map some) s = true := by
  rw [tryAlt_true_iff]
  intro k hk
  rw [List.length_map] at hk
  refine ⟨X[k], ?_, ?_⟩
  · rw [h k hk, List.getElem?_eq_getElem hk]
  · rw [List.getElem_map]
    simp [charOk]

theorem tryMatch_some_elim {alts : List RuleAlt} {s : List Char} {len : Nat}
    {repl : List Char} (h : tryMatch alts s = some (len, repl)) :
    ∃ a ∈ alts, tryAlt a.pat s = true ∧ len = a.pat.length ∧
      repl = a.mkRepl (s.take a.pat.length) := by
  induction alts with
  | nil => simp [tryMatch] at h
  | cons a rest ih =>
    unfold tryMatch at h
    by_cases ha : tryAlt a.pat s = true
    · rw [if_pos ha] at h
      injection h with h'
      injection h' with h1 h2
      exact ⟨a, List.mem_cons_self a rest, ha, h1.symm, h2.symm⟩
    · rw [if_neg ha] at h
      obtain ⟨b, hb, h1, h2, h3⟩ := ih h
      exact ⟨b, List.mem_cons_of_mem a hb, h1, h2, h3⟩

theorem tryMatch_none_of_all {alts : List RuleAlt} {s : List Char}
    (h : ∀ a ∈ alts, tryAlt a.pat s = false) : tryMatch alts s = none := by
  induction alts with
  | nil => rfl
  | cons a rest ih =>
    unfold tryMatch
    rw [if_neg (by rw [h a (List.mem_cons_self a rest)]; exact Bool.false_ne_true)]
    exact ih (fun b hb => h b (List.mem_cons_of_mem a hb))

theorem tryMatch_eq_of_split {pre post : List RuleAlt} {a₀ : RuleAlt} {s : List Char}
    (hpre : ∀ a ∈ pre, tryAlt a.pat s = false) (ha : tryAlt a₀.pat s = true) :
    tryMatch (pre ++ a₀ :: post) s =
      some (a₀.pat.length, a₀.mkRepl (s.take a₀.pat.length)) := by
  induction pre with
  | nil =>
    rw [List.nil_append]
    unfold tryMatch
    rw [if_pos ha]
  | cons b pre' ih =>
    rw [List.cons_append]
    unfold tryMatch
    rw [if_neg (by rw [hpre b (List.mem_cons_self b pre')]; exact Bool.false_ne_true)]
    exact ih (fun a hx => hpre a (List.mem_cons_of_mem b hx))

theorem subScanF_fuel {alts : List RuleAlt} :
    ∀ fuel fuel' s, s.length ≤ fuel → s.length ≤ fuel' →
      subScanF alts fuel s = subScanF alts fuel' s := by
  intro fuel
  induction fuel with
  | zero =>
    intro fuel' s hs _
    have : s = [] := List.eq_nil_of_length_eq_zero (by omega)
    subst this
    cases fuel' <;> rfl
  | succ n ih =>
    intro fuel' s hs hs'
    cases s with
    | nil => cases fuel' <;> rfl
    | cons c rest =>
      cases fuel' with
      | zero => simp at hs'
      | succ n' =>
        show subScanF alts (n + 1) (c :: rest) = subScanF alts (n' + 1) (c :: rest)
        unfold subScanF
        cases h : tryMatch alts (c :: rest) with
        | none =>
          have := ih n' rest (by simpa using hs) (by simpa using hs')
          rw [this]
        | some p =>
          obtain ⟨len, repl⟩ := p
          show repl ++ subScanF alts n (rest.drop (len - 1)) =
            repl ++ subScanF alts n' (rest.drop (len - 1))
          congr 1
          exact ih n' (rest.drop (len - 1))
            (by rw [List.length_drop]; simp at hs; omega)
            (by rw [List.length_drop]; simp at hs'; omega)

theorem subScan_nil {alts : List RuleAlt} : subScan alts [] = [] := rfl

theorem subScan_cons_match {alts : List RuleAlt} {c : Char} {rest : List Char}
    {len : Nat} {repl : List Char} (h : tryMatch alts (c :: rest) = some (len, repl))
    (hlen : 1 ≤ len) :
    subScan alts (c :: rest) = repl ++ subScan alts ((c :: rest).drop len) := by
  have hdrop : (c :: rest).drop len = rest.drop (len - 1) := by
    cases len with
    | zero => omega
    | succ m => rw [List.drop_succ_cons]; simp
  show subScanF alts (rest.length + 1) (c :: rest) = _
  unfold subScanF
  rw [h]
  show repl ++ subScanF alts rest.length (rest.drop (len - 1)) =
    repl ++ subScan alts ((c :: rest).drop len)
  rw [hdrop]
  congr 1
  apply subScanF_fuel
  · rw [List.length_drop]; omega
  · rfl

theorem subScan_cons_none {alts : List RuleAlt} {c : Char} {rest : List Char}
    (h : tryMatch alts (c :: rest) = none) :
    subScan alts (c :: rest) = c :: subScan alts rest := by
  show subScanF alts (rest.length + 1) (c :: rest) = _
  unfold subScanF
  rw [h]
  show c :: subScanF alts rest.length rest = c :: subScan alts rest
  rfl

/-- Every alternative of the rule has a nonempty pattern (true of all three
rules; it makes every match consume at least one character). -/
def altsPos (alts : List RuleAlt) : Bool :=
  alts.all fun a => decide (1 ≤ a.pat.length)

theorem tryMatch_len_pos {alts : List RuleAlt} {s : List Char} {len : Nat}
    {repl : List Char} (hpos : altsPos alts = true)
    (h : tryMatch alts s = some (len, repl)) : 1 ≤ len := by
  obtain ⟨a, ha, _, hlen, _⟩ := tryMatch_some_elim h
  have := List.all_eq_true.mp hpos a ha
  rw [hlen]
  exact of_decide_eq_true this

/-- Window preservation: if no match of the rule overlaps an occurrence of `W`
at position `i` of `s` (matches wholly before or wholly after it are fine),
then the scan copies that occurrence into its output; an occurrence at the
very start stays at the very start. -/
theorem subScan_window_aux (alts : List RuleAlt) :
    ∀ n s W i, s.length ≤ n → containsAt s W i →
      (∀ p len repl, tryMatch alts (s.drop p) = some (len, repl) →
        1 ≤ len ∧ (p + len ≤ i ∨ i + W.length ≤ p)) →
      ∃ i', containsAt (subScan alts s) W i' ∧ (i = 0 → i' = 0) := by
  intro n
  induction n with
  | zero =>
    intro s W i hs hca _
    have hnil : s = [] := List.eq_nil_of_length_eq_zero (by omega)
    subst hnil
    cases W with
    | nil => exact ⟨0, fun j hj => by simp at hj, fun _ => rfl⟩
    | cons w W' =>
      have := hca 0 (by simp)
      simp at this
  | succ n ih =>
    intro s W i hs hca hov
    cases s with
    | nil =>
      cases W with
      | nil => exact ⟨0, fun j hj => by simp at hj, fun _ => rfl⟩
      | cons w W' =>
        have := hca 0 (by simp)
        simp at this
    | cons c rest =>
      cases hm : tryMatch alts (c :: rest) with
      | some p =>
        obtain ⟨len, repl⟩ := p
        obtain ⟨hlen, hside⟩ := hov 0 len repl (by simpa using hm)
        cases hside with
        | inl hle =>
          rw [subScan_cons_match hm hlen]
          have hca' : containsAt ((c :: rest).drop len) W (i - len) :=
            containsAt_drop (by omega) hca
          have hov' : ∀ p l r, tryMatch alts (((c :: rest).drop len).drop p) = some (l, r) →
              1 ≤ l ∧ (p + l ≤ i - len ∨ (i - len) + W.length ≤ p) := by
            intro p l r hp
            rw [List.drop_drop] at hp
            obtain ⟨h1, h2⟩ := hov (len + p) l r hp
            exact ⟨h1, by omega⟩
          obtain ⟨i'', hi'', _⟩ := ih ((c :: rest).drop len) W (i - len)
            (by rw [List.length_drop]; simp only [List.length_cons] at hs ⊢; omega) hca' hov'
          exact ⟨repl.length + i'', containsAt_append_left hi'', fun h0 => by omega⟩
        | inr hge =>
          have hW : W.length = 0 := by omega
          rw [subScan_cons_match hm hlen]
          exact ⟨0, fun j hj => by omega, fun _ => rfl⟩
      | none =>
        rw [subScan_cons_none hm]
        cases i with
        | zero =>
          cases W with
          | nil => exact ⟨0, fun j hj => by simp at hj, fun _ => rfl⟩
          | cons w W' =>
            have h0 := hca 0 (by simp)
            rw [Nat.add_zero] at h0
            have hcw : c = w := by simpa using h0
            have hca' : containsAt rest W' 0 := by
              intro j hj
              have := hca (j + 1) (by simp only [List.length_cons]; omega)
              rw [Nat.zero_add] at this ⊢
              simpa using this
            have hov' : ∀ p l r, tryMatch alts (rest.drop p) = some (l, r) →
                1 ≤ l ∧ (p + l ≤ 0 ∨ 0 + W'.length ≤ p) := by
              intro p l r hp
              rw [show rest.drop p = (c :: rest).drop (p + 1) from
                (List.drop_succ_cons ..).symm] at hp
              obtain ⟨h1, h2⟩ := hov (p + 1) l r hp
              refine ⟨h1, ?_⟩
              simp only [List.length_cons, Nat.zero_add] at h2 ⊢
              omega
            obtain ⟨i'', hi'', hz⟩ := ih rest W' 0
              (by simp only [List.length_cons] at hs; omega) hca' hov'
            have hz0 : i'' = 0 := hz rfl
            subst hz0
            refine ⟨0, ?_, fun _ => rfl⟩
            intro j hj
            cases j with
            | zero =>
              rw [Nat.add_zero]
              simpa using hcw
            | succ j' =>
              rw [Nat.zero_add, List.getElem?_cons_succ, List.getElem?_cons_succ]
              have := hi'' j' (by simp only [List.length_cons] at hj; omega)
              rwa [Nat.zero_add] at this
        | succ i₀ =>
          have hca' : containsAt rest W i₀ := containsAt_of_cons_succ hca
          have hov' : ∀ p l r, tryMatch alts (rest.drop p) = some (l, r) →
              1 ≤ l ∧ (p + l ≤ i₀ ∨ i₀ + W.length ≤ p) := by
            intro p l r hp
            rw [show rest.drop p = (c :: rest).drop (p + 1) from
              (List.drop_succ_cons ..).symm] at hp
            obtain ⟨h1, h2⟩ := hov (p + 1) l r hp
            exact ⟨h1, by omega⟩
          obtain ⟨i'', hi'', _⟩ := ih rest W i₀
            (by simp only [List.length_cons] at hs; omega) hca' hov'
          exact ⟨i'' + 1, containsAt_cons_succ hi'', fun h => by omega⟩

theorem subScan_window {alts : List RuleAlt} {s W : List Char} {i : Nat}
    (hca : containsAt s W i)
    (hov : ∀ p len repl, tryMatch alts (s.drop p) = some (len, repl) →
      1 ≤ len ∧ (p + len ≤ i ∨ i + W.length ≤ p)) :
    ∃ i', containsAt (subScan alts s) W i' :=
  (subScan_window_aux alts s.length s W i le_rfl hca hov).elim
    fun i' h => ⟨i', h.1⟩

theorem ContainsSub_append_left {T A B : List Char} (h : ContainsSub T B) :
    ContainsSub T (A ++ B) := by
  obtain ⟨i, hi⟩ := h.elim'
  exact ContainsSub_of_containsAt (containsAt_append_left (A := A) hi)

theorem ContainsSub_cons {T : List Char} {c : Char} {B : List Char}
    (h : ContainsSub T B) : ContainsSub T (c :: B) := by
  obtain ⟨i, hi⟩ := h.elim'
  exact ContainsSub_of_containsAt (containsAt_cons_succ (c := c) hi)

/-- If no match can start anywhere inside `u` (whatever follows it), the scan
copies `u` verbatim and continues with the remainder. -/
theorem subScan_verbatim (alts : List RuleAlt) :
    ∀ (u tail : List Char),
      (∀ j < u.length, tryMatch alts (u.drop j ++ tail) = none) →
      subScan alts (u ++ tail) = u ++ subScan alts tail := by
  intro u
  induction u with
  | nil => intro tail _; rfl
  | cons c u' ih =>
    intro tail h
    have h0 : tryMatch alts (c :: (u' ++ tail)) = none := by
      have := h 0 (by simp only [List.length_cons]; omega)
      simpa using this
    rw [List.cons_append, subScan_cons_none h0,
      ih tail (fun j hj => by
        have := h (j + 1) (by simp only [List.length_cons]; omega)
        rwa [List.drop_succ_cons] at this)]
    rfl

/-- Firing on a window: suppose the rule always matches at the head of
`W ++ anything` with length `len₀` and replacement `repl₀`, cannot match
starting anywhere in the tail `W.drop len₀`, and (in the text at hand) every
match starting before an occurrence of `W` ends no later than that
occurrence begins.  Then scanning a text containing `W` yields a text
containing `repl₀ ++ W.drop len₀`. -/
theorem subScan_fire_aux (alts : List RuleAlt) (W : List Char) (len₀ : Nat)
    (repl₀ : List Char) (hlen : 1 ≤ len₀) (hle : len₀ ≤ W.length)
    (hfire : ∀ rest, tryMatch alts (W ++ rest) = some (len₀, repl₀))
    (htail : ∀ j, len₀ ≤ j → j < W.length →
      ∀ rest, tryMatch alts (W.drop j ++ rest) = none) :
    ∀ n s i, s.length ≤ n → containsAt s W i →
      (∀ p len repl, p < i → tryMatch alts (s.drop p) = some (len, repl) →
        1 ≤ len ∧ p + len ≤ i) →
      ContainsSub (repl₀ ++ W.drop len₀) (subScan alts s) := by
  intro n
  induction n with
  | zero =>
    intro s i hs hca _
    have hnil : s = [] := List.eq_nil_of_length_eq_zero (by omega)
    subst hnil
    have hW : 0 < W.length := by omega
    have h0 := hca 0 hW
    rw [List.getElem?_nil, List.getElem?_eq_getElem hW] at h0
    exact absurd h0 (by simp)
  | succ n ih =>
    intro s i hs hca hpre
    cases s with
    | nil =>
      have hW : 0 < W.length := by omega
      have h0 := hca 0 hW
      rw [List.getElem?_nil, List.getElem?_eq_getElem hW] at h0
      exact absurd h0 (by simp)
    | cons c rest =>
      cases i with
      | zero =>
        have hseq : (c :: rest) = W ++ (c :: rest).drop W.length :=
          eq_append_of_containsAt_zero hca
        have hm := hfire ((c :: rest).drop W.length)
        rw [← hseq] at hm
        rw [subScan_cons_match hm hlen]
        have hdrop : (c :: rest).drop len₀ =
            W.drop len₀ ++ (c :: rest).drop W.length := by
          conv_lhs => rw [hseq]
          rw [List.drop_append_of_le_length hle]
        rw [hdrop, subScan_verbatim alts (W.drop len₀) _ (fun j hj => by
          rw [List.drop_drop]
          rw [List.length_drop] at hj
          exact htail (len₀ + j) (by omega) (by omega) _)]
        apply ContainsSub_of_containsAt (i := 0)
        rw [← List.append_assoc]
        exact containsAt_prefix_self
      | succ i₀ =>
        cases hm : tryMatch alts (c :: rest) with
        | some p =>
          obtain ⟨len, repl⟩ := p
          obtain ⟨hl1, hl2⟩ := hpre 0 len repl (Nat.succ_pos i₀) (by simpa using hm)
          rw [subScan_cons_match hm hl1]
          apply ContainsSub_append_left
          apply ih ((c :: rest).drop len) (i₀ + 1 - len)
          · rw [List.length_drop]
            simp only [List.length_cons] at hs ⊢
            omega
          · exact containsAt_drop (by omega) hca
          · intro p l r hp hmp
            rw [List.drop_drop] at hmp
            obtain ⟨g1, g2⟩ := hpre (len + p) l r (by omega) hmp
            exact ⟨g1, by omega⟩
        | none =>
          rw [subScan_cons_none hm]
          apply ContainsSub_cons
          apply ih rest i₀ (by simp only [List.length_cons] at hs; omega)
            (containsAt_of_cons_succ hca)
          intro p l r hp hmp
          rw [show rest.drop p = (c :: rest).drop (p + 1) from
            (List.drop_succ_cons ..).symm] at hmp
          obtain ⟨g1, g2⟩ := hpre (p + 1) l r (by omega) hmp
          exact ⟨g1, by omega⟩

theorem subScan_fire {alts : List RuleAlt} {W : List Char} {len₀ : Nat}
    {repl₀ : List Char} {s : List Char} {i : Nat}
    (hlen : 1 ≤ len₀) (hle : len₀ ≤ W.length)
    (hfire : ∀ rest, tryMatch alts (W ++ rest) = some (len₀, repl₀))
    (htail : ∀ j, len₀ ≤ j → j < W.length →
      ∀ rest, tryMatch alts (W.drop j ++ rest) = none)
    (hca : containsAt s W i)
    (hpre : ∀ p len repl, p < i → tryMatch alts (s.drop p) = some (len, repl) →
      1 ≤ len ∧ p + len ≤ i) :
    ContainsSub (repl₀ ++ W.drop len₀) (subScan alts s) :=
  subScan_fire_aux alts W len₀ repl₀ hlen hle hfire htail s.length s i le_rfl hca hpre

theorem tryAlt_map_some_imp {X s : List Char}
    (h : tryAlt (X.map some) s = true) : ∀ k < X.length, s[k]? = X[k]? := by
  intro k hk
  obtain ⟨c, hc, hok⟩ := tryAlt_true_iff.mp h k (by rw [List.length_map]; exact hk)
  rw [List.getElem_map] at hok
  have : X[k] = c := of_decide_eq_true hok
  rw [hc, List.getElem?_eq_getElem hk, this]

theorem tryMatch_rule3_of_tryAlt {s : List Char}
    (h : tryAlt (plusConcat.map some) s = true) :
    tryMatch rule3Alts s = some (plusConcat.length, tildeConcat) := by
  unfold rule3Alts tryMatch
  rw [if_pos h]
  rw [List.length_map]

theorem tryMatch_rule3_none {s : List Char}
    (h : tryAlt (plusConcat.map some) s = false) :
    tryMatch rule3Alts s = none := by
  apply tryMatch_none_of_all
  intro a ha
  have : a = ⟨plusConcat.map some, fun _ => tildeConcat⟩ := by
    simpa [rule3Alts] using ha
  subst this
  exact h

theorem plusConcat_length : plusConcat.length = 41 := rfl

theorem tildeConcat_length : tildeConcat.length = 41 := rfl

theorem subScan_rule3_match {c : Char} {rest : List Char}
    (h : tryAlt (plusConcat.map some) (c :: rest) = true) :
    subScan rule3Alts (c :: rest) =
      tildeConcat ++ subScan rule3Alts ((c :: rest).drop plusConcat.length) :=
  subScan_cons_match (tryMatch_rule3_of_tryAlt h) (by rw [plusConcat_length]; omega)

theorem subScan_rule3_nomatch {c : Char} {rest : List Char}
    (h : tryAlt (plusConcat.map some) (c :: rest) = false) :
    subScan rule3Alts (c :: rest) = c :: subScan rule3Alts rest :=
  subScan_cons_none (tryMatch_rule3_none h)

/-- The rule-3 pattern and replacement agree at every position except their
two endpoints, where the replacement has `~`. -/
theorem tilde_plus_agree :
    ∀ j < 41, tildeConcat[j]? = plusConcat[j]? ∨ tildeConcat[j]? = some '~' := by
  decide

theorem tilde_no_plus : ∀ j < 41, tildeConcat[j]? ≠ some '+' := by decide

theorem plus_no_tilde : ∀ j < 41, plusConcat[j]? ≠ some '~' := by decide

/-- Characters of a rule-3 output that are not `~` come unchanged from the
same position of the input (the substitution preserves length and only turns
the two end `+` of each matched occurrence into `~`). -/
theorem subScan_rule3_charRel_aux :
    ∀ (n : Nat) (s : List Char), s.length ≤ n → ∀ (j : Nat) (c : Char),
      (subScan rule3Alts s)[j]? = some c → c ≠ '~' → s[j]? = some c := by
  intro n
  induction n with
  | zero =>
    intro s hs j c hj _
    have hnil : s = [] := List.eq_nil_of_length_eq_zero (by omega)
    subst hnil
    rw [show subScan rule3Alts [] = [] from rfl, List.getElem?_nil] at hj
    exact absurd hj (by simp)
  | succ n ih =>
    intro s hs j c hj hne
    cases s with
    | nil =>
      rw [show subScan rule3Alts [] = [] from rfl, List.getElem?_nil] at hj
      exact absurd hj (by simp)
    | cons c₀ rest =>
      by_cases hA : tryAlt (plusConcat.map some) (c₀ :: rest) = true
      · rw [subScan_rule3_match hA] at hj
        by_cases hjY : j < tildeConcat.length
        · rw [List.getElem?_append_left hjY] at hj
          rcases tilde_plus_agree j (by rw [tildeConcat_length] at hjY; omega) with hag | hag
          · rw [hag] at hj
            have := tryAlt_map_some_imp hA j
              (by rw [plusConcat_length]; rw [tildeConcat_length] at hjY; omega)
            rw [this, hj]
          · rw [hag] at hj
            injection hj with hj'
            exact absurd hj'.symm hne
        · rw [List.getElem?_append_right (by omega)] at hj
          have hrec := ih ((c₀ :: rest).drop plusConcat.length)
            (by rw [List.length_drop, plusConcat_length]
                simp only [List.length_cons] at hs ⊢
                omega)
            (j - tildeConcat.length) c hj hne
          rw [List.getElem?_drop] at hrec
          rw [show plusConcat.length + (j - tildeConcat.length) = j by
            rw [plusConcat_length]; rw [tildeConcat_length] at hjY ⊢; omega] at hrec
          exact hrec
      · rw [Bool.not_eq_true] at hA
        rw [subScan_rule3_nomatch hA] at hj
        cases j with
        | zero =>
          rw [List.getElem?_cons_zero] at hj ⊢
          exact hj
        | succ j' =>
          rw [List.getElem?_cons_succ] at hj ⊢
          exact ih rest (by simp only [List.length_cons] at hs; omega) j' c hj hne

/-- At a position of the input where the rule-3 pattern occurs, the output
never carries a `+` (the occurrence's opening character): either a match fired
there or at an overlapping earlier position (output chars come from the
replacement, which has no `+`). -/
theorem subScan_rule3_noPlus_aux :
    ∀ n s, s.length ≤ n → ∀ i, containsAt s plusConcat i →
      (subScan rule3Alts s)[i]? ≠ some '+' := by
  intro n
  induction n with
  | zero =>
    intro s hs i hca
    have hnil : s = [] := List.eq_nil_of_length_eq_zero (by omega)
    subst hnil
    have h0 := hca 0 (by rw [plusConcat_length]; omega)
    rw [List.getElem?_nil] at h0
    exact absurd h0 (by simp [plusConcat])
  | succ n ih =>
    intro s hs i hca
    cases s with
    | nil =>
      have h0 := hca 0 (by rw [plusConcat_length]; omega)
      rw [List.getElem?_nil] at h0
      exact absurd h0 (by simp [plusConcat])
    | cons c₀ rest =>
      by_cases hA : tryAlt (plusConcat.map some) (c₀ :: rest) = true
      · rw [subScan_rule3_match hA]
        by_cases hi : i < tildeConcat.length
        · rw [List.getElem?_append_left hi]
          exact tilde_no_plus i (by rw [tildeConcat_length] at hi; omega)
        · rw [List.getElem?_append_right (by omega)]
          apply ih ((c₀ :: rest).drop plusConcat.length)
            (by rw [List.length_drop, plusConcat_length]
                simp only [List.length_cons] at hs ⊢
                omega)
          have := containsAt_drop
            (show plusConcat.length ≤ i by
              rw [plusConcat_length]; rw [tildeConcat_length] at hi; omega) hca
          rw [show i - plusConcat.length = i - tildeConcat.length from rfl] at this
          exact this
      · rw [Bool.not_eq_true] at hA
        cases i with
        | zero =>
          exfalso
          rw [Bool.eq_false_iff] at hA
          apply hA
          apply tryAlt_map_some_of_containsAt
          intro k hk
          have := hca k hk
          rwa [Nat.zero_add] at this
        | succ i₀ =>
          rw [subScan_rule3_nomatch hA, List.getElem?_cons_succ]
          exact ih rest (by simp only [List.length_cons] at hs; omega) i₀
            (containsAt_of_cons_succ hca)

/-- No rule-3 output contains the replaced literal. -/
theorem subScan_rule3_no_plusConcat (s : List Char) :
    ¬ ContainsSub plusConcat (subScan rule3Alts s) := by
  intro h
  obtain ⟨i, hca⟩ := h.elim'
  have hcs : containsAt s plusConcat i := by
    intro j hj
    have h1 := hca j hj
    rw [List.getElem?_eq_getElem hj] at h1 ⊢
    have hnt : plusConcat[j] ≠ '~' := by
      intro heq
      exact plus_no_tilde j (by rw [plusConcat_length] at hj; omega)
        (by rw [List.getElem?_eq_getElem hj, heq])
    exact subScan_rule3_charRel_aux s.length s le_rfl (i + j) plusConcat[j] h1 hnt
  have h0 := hca 0 (by rw [plusConcat_length]; omega)
  rw [Nat.add_zero] at h0
  exact subScan_rule3_noPlus_aux s.length s le_rfl i hcs
    (by rw [h0]; rfl)

/-- If the input contains the rule-3 literal, the output contains the
replacement (the leftmost fire emits it). -/
theorem subScan_rule3_fires_aux :
    ∀ n s, s.length ≤ n → ContainsSub plusConcat s →
      ContainsSub tildeConcat (subScan rule3Alts s) := by
  intro n
  induction n with
  | zero =>
    intro s hs h
    have hnil : s = [] := List.eq_nil_of_length_eq_zero (by omega)
    subst hnil
    obtain ⟨i, hca⟩ := h.elim'
    have h0 := hca 0 (by rw [plusConcat_length]; omega)
    rw [List.getElem?_nil] at h0
    exact absurd h0 (by simp [plusConcat])
  | succ n ih =>
    intro s hs h
    cases s with
    | nil =>
      obtain ⟨i, hca⟩ := h.elim'
      have h0 := hca 0 (by rw [plusConcat_length]; omega)
      rw [List.getElem?_nil] at h0
      exact absurd h0 (by simp [plusConcat])
    | cons c₀ rest =>
      by_cases hA : tryAlt (plusConcat.map some) (c₀ :: rest) = true
      · rw [subScan_rule3_match hA]
        exact ContainsSub_of_containsAt (containsAt_prefix_self)
      · rw [Bool.not_eq_true] at hA
        rw [subScan_rule3_nomatch hA]
        apply ContainsSub_cons
        apply ih rest (by simp only [List.length_cons] at hs; omega)
        obtain ⟨i, hca⟩ := h.elim'
        cases i with
        | zero =>
          exfalso
          rw [Bool.eq_false_iff] at hA
          apply hA
          apply tryAlt_map_some_of_containsAt
          intro k hk
          have := hca k hk
          rwa [Nat.zero_add] at this
        | succ i₀ => exact ContainsSub_of_containsAt (containsAt_of_cons_succ hca)

theorem subScan_rule3_fires {s : List Char} (h : ContainsSub plusConcat s) :
    ContainsSub tildeConcat (subScan rule3Alts s) :=
  subScan_rule3_fires_aux s.length s le_rfl h

/-- Decidable certificate: an alternative laid over the window at window
offset `t` always disagrees with some window character at a literal pattern
position (so no match can begin inside the window). -/
def clashInside (a : List PatChar) (W : List Char) (t : Nat) : Bool :=
  (List.range a.length).any fun k =>
    decide (t + k < W.length) &&
    (match a[k]?, W[t + k]? with
     | some (some pc), some wc => decide (pc ≠ wc)
     | _, _ => false)

def checkInside (alts : List RuleAlt) (W : List Char) : Bool :=
  alts.all fun a => (List.range W.length).all fun t => clashInside a.pat W t

/-- Decidable certificate: an alternative starting `u` positions before the
window always disagrees with some window character at a literal pattern
position (so no match starting before the window can reach into it). -/
def clashBefore (a : List PatChar) (W : List Char) (u : Nat) : Bool :=
  (List.range a.length).any fun k =>
    decide (u ≤ k) && decide (k - u < W.length) &&
    (match a[k]?, W[k - u]? with
     | some (some pc), some wc => decide (pc ≠ wc)
     | _, _ => false)

def checkBefore (alts : List RuleAlt) (W : List Char) : Bool :=
  alts.all fun a =>
    (List.range' 1 (a.pat.length - 1)).all fun u => clashBefore a.pat W u

theorem no_match_inside {alts : List RuleAlt} {W s : List Char} {i p len : Nat}
    {repl : List Char} (hchk : checkInside alts W = true)
    (hca : containsAt s W i) (hm : tryMatch alts (s.drop p) = some (len, repl))
    (hpi : i ≤ p) (hpw : p < i + W.length) : False := by
  obtain ⟨a, ha, htr, hlen, _⟩ := tryMatch_some_elim hm
  have ht : p - i < W.length := by omega
  have hcl := List.all_eq_true.mp (List.all_eq_true.mp hchk a ha) (p - i)
    (List.mem_range.mpr ht)
  obtain ⟨k, hk, hcond⟩ := List.any_eq_true.mp hcl
  have hk' := List.mem_range.mp hk
  rw [Bool.and_eq_true] at hcond
  obtain ⟨h1, h2⟩ := hcond
  have h1' : p - i + k < W.length := of_decide_eq_true h1
  rw [List.getElem?_eq_getElem hk', List.getElem?_eq_getElem h1'] at h2
  cases hpc : a.pat[k] with
  | none => rw [hpc] at h2; simp at h2
  | some pc =>
    rw [hpc] at h2
    have hne : pc ≠ W[p - i + k] := of_decide_eq_true h2
    obtain ⟨c, hc, hok⟩ := tryAlt_true_iff.mp htr k hk'
    rw [hpc] at hok
    have hpcc : pc = c := of_decide_eq_true hok
    rw [List.getElem?_drop] at hc
    have hw := hca (p - i + k) h1'
    rw [show i + (p - i + k) = p + k by omega, hc,
      List.getElem?_eq_getElem h1'] at hw
    injection hw with hw'
    exact hne (hpcc.trans hw')

theorem no_match_before {alts : List RuleAlt} {W s : List Char} {i p len : Nat}
    {repl : List Char} (hchk : checkBefore alts W = true)
    (hca : containsAt s W i) (hm : tryMatch alts (s.drop p) = some (len, repl))
    (hpi : p < i) (hover : i < p + len) : False := by
  obtain ⟨a, ha, htr, hlen, _⟩ := tryMatch_some_elim hm
  subst hlen
  have hu : i - p ∈ List.range' 1 (a.pat.length - 1) :=
    List.mem_range'_1.mpr ⟨by omega, by omega⟩
  have hcl := List.all_eq_true.mp (List.all_eq_true.mp hchk a ha) (i - p) hu
  obtain ⟨k, hk, hcond⟩ := List.any_eq_true.mp hcl
  have hk' := List.mem_range.mp hk
  rw [Bool.and_eq_true, Bool.and_eq_true] at hcond
  obtain ⟨⟨h1, h2⟩, h3⟩ := hcond
  have h1' : i - p ≤ k := of_decide_eq_true h1
  have h2' : k - (i - p) < W.length := of_decide_eq_true h2
  rw [List.getElem?_eq_getElem hk', List.getElem?_eq_getElem h2'] at h3
  cases hpc : a.pat[k] with
  | none => rw [hpc] at h3; simp at h3
  | some pc =>
    rw [hpc] at h3
    have hne : pc ≠ W[k - (i - p)] := of_decide_eq_true h3
    obtain ⟨c, hc, hok⟩ := tryAlt_true_iff.mp htr k hk'
    rw [hpc] at hok
    have hpcc : pc = c := of_decide_eq_true hok
    rw [List.getElem?_drop] at hc
    have hw := hca (k - (i - p)) h2'
    rw [show i + (k - (i - p)) = p + k by omega, hc,
      List.getElem?_eq_getElem h2'] at hw
    injection hw with hw'
    exact hne (hpcc.trans hw')

/-- Package the two clash certificates into the side condition used by
`subScan_window`. -/
theorem overlap_sides {alts : List RuleAlt} {W s : List Char} {i : Nat}
    (hin : checkInside alts W = true) (hbef : checkBefore alts W = true)
    (hpos : altsPos alts = true) (hca : containsAt s W i) :
    ∀ p len repl, tryMatch alts (s.drop p) = some (len, repl) →
      1 ≤ len ∧ (p + len ≤ i ∨ i + W.length ≤ p) := by
  intro p len repl hm
  refine ⟨tryMatch_len_pos hpos hm, ?_⟩
  by_cases hpi : p < i
  · left
    by_contra hgt
    exact no_match_before hbef hca hm hpi (by omega)
  · by_cases hpw : p < i + W.length
    · exact absurd (no_match_inside hin hca hm (by omega) hpw) (by simp)
    · right; omega

/-- Package the before-window certificate into the side condition used by
`subScan_fire`. -/
theorem before_side {alts : List RuleAlt} {W s : List Char} {i : Nat}
    (hbef : checkBefore alts W = true) (hpos : altsPos alts = true)
    (hca : containsAt s W i) :
    ∀ p len repl, p < i → tryMatch alts (s.drop p) = some (len, repl) →
      1 ≤ len ∧ p + len ≤ i := by
  intro p len repl hpi hm
  refine ⟨tryMatch_len_pos hpos hm, ?_⟩
  by_contra hgt
  exact no_match_before hbef hca hm hpi (by omega)

/-- Decidable certificate: the alternative disagrees with the window at a
literal pattern position inside the window, so whatever follows the window,
the alternative cannot match at its start. -/
def failsInWindow (a : List PatChar) (W : List Char) : Bool :=
  (List.range a.length).any fun k =>
    decide (k < W.length) &&
    (match a[k]?, W[k]? with
     | some (some pc), some wc => decide (pc ≠ wc)
     | _, _ => false)

theorem tryAlt_false_of_failsInWindow {a : List PatChar} {W : List Char}
    (v : List Char) (h : failsInWindow a W = true) : tryAlt a (W ++ v) = false := by
  obtain ⟨k, hk, hcond⟩ := List.any_eq_true.mp h
  have hk' := List.mem_range.mp hk
  rw [Bool.and_eq_true] at hcond
  obtain ⟨h1, h2⟩ := hcond
  have h1' : k < W.length := of_decide_eq_true h1
  rw [List.getElem?_eq_getElem hk', List.getElem?_eq_getElem h1'] at h2
  cases hpc : a[k] with
  | none => rw [hpc] at h2; simp at h2
  | some pc =>
    rw [hpc] at h2
    apply tryAlt_false_of_clash v hk' h1'
    rw [hpc]
    exact decide_eq_false (fun he => (of_decide_eq_true h2) he)

/-- Decidable certificate: from every position of the window at or after
`len₀`, every alternative fails already at its first (literal) character, so
no match can start there whatever follows the window. -/
def tailNoStart (alts : List RuleAlt) (W : List Char) (len₀ : Nat) : Bool :=
  (List.range' len₀ (W.length - len₀)).all fun j =>
    alts.all fun a =>
      match a.pat[0]?, W[j]? with
      | some (some pc), some wc => decide (pc ≠ wc)
      | _, _ => false

theorem htail_of_tailNoStart {alts : List RuleAlt} {W : List Char} {len₀ : Nat}
    (h : tailNoStart alts W len₀ = true) :
    ∀ j, len₀ ≤ j → j < W.length → ∀ rest, tryMatch alts (W.drop j ++ rest) = none := by
  intro j hj1 hj2 rest
  apply tryMatch_none_of_all
  intro a ha
  have hj' : j ∈ List.range' len₀ (W.length - len₀) :=
    List.mem_range'_1.mpr ⟨hj1, by omega⟩
  have hcond := List.all_eq_true.mp (List.all_eq_true.mp h j hj') a ha
  cases hp0 : a.pat[0]? with
  | none => rw [hp0] at hcond; simp at hcond
  | some pc0 =>
    cases pc0 with
    | none => rw [hp0] at hcond; simp at hcond
    | some pc =>
      cases hw : W[j]? with
      | none => rw [hp0, hw] at hcond; simp at hcond
      | some wc =>
        rw [hp0, hw] at hcond
        have hne : pc ≠ wc := of_decide_eq_true hcond
        obtain ⟨hlt, hp0'⟩ := List.getElem?_eq_some.mp hp0
        obtain ⟨hwlt, hw'⟩ := List.getElem?_eq_some.mp hw
        have hd0 : (W.drop j)[0]? = some wc := by
          rw [List.getElem?_drop, Nat.add_zero, hw]
        obtain ⟨hdlt, hd0'⟩ := List.getElem?_eq_some.mp hd0
        apply tryAlt_false_of_clash rest hlt hdlt
        rw [hp0', hd0']
        exact decide_eq_false hne

/-- The preprocessor windows and rewritten forms appearing in the claims. -/
def legendText : List Char := "params.legend.text".toList

def legendRepl : List Char := "(params.legend|default(\x7b\x7d)).".toList

def legendTextFixed : List Char := "(params.legend|default(\x7b\x7d)).text".toList

def forAttrItem : List Char := "for attribute, value in item.attributes".toList

def forAttrItemFixed : List Char :=
  "for attribute, value in (item.attributes|default(\x7b\x7d))".toList

/-- On any text beginning with `params.legend.text`, rule 2 fires with the
`params.legend` alternative: the seven alternatives before it fail inside the
window, and the match consumes `params.legend.` (14 characters). -/
theorem rule2_fire_legendText :
    ∀ rest, tryMatch rule2Alts (legendText ++ rest) = some (14, legendRepl) := by
  intro rest
  have hfail : ∀ a ∈ [nestedAlt "cell" "attributes", nestedAlt "item" "conditional",
      nestedAlt "item" "hint", nestedAlt "item" "label",
      nestedAlt "params" "attributes", nestedAlt "params" "countMessage",
      nestedAlt "params" "formGroup"], tryAlt a.pat (legendText ++ rest) = false := by
    intro a ha
    fin_cases ha <;> exact tryAlt_false_of_failsInWindow rest (by decide)
  have hok : tryAlt (nestedAlt "params" "legend").pat (legendText ++ rest) = true := by
    rw [tryAlt_append_of_le rest (by decide)]
    decide
  have h := @tryMatch_eq_of_split
    [nestedAlt "cell" "attributes", nestedAlt "item" "conditional",
     nestedAlt "item" "hint", nestedAlt "item" "label",
     nestedAlt "params" "attributes", nestedAlt "params" "countMessage",
     nestedAlt "params" "formGroup"]
    [nestedAlt "params" "prefix", nestedAlt "params" "suffix"]
    (nestedAlt "params" "legend") (legendText ++ rest) hfail hok
  rw [show ([nestedAlt "cell" "attributes", nestedAlt "item" "conditional",
      nestedAlt "item" "hint", nestedAlt "item" "label",
      nestedAlt "params" "attributes", nestedAlt "params" "countMessage",
      nestedAlt "params" "formGroup"] ++ nestedAlt "params" "legend" ::
      [nestedAlt "params" "prefix", nestedAlt "params" "suffix"]) = rule2Alts
    from rfl] at h
  rw [h, List.take_append_of_le_length (by decide)]
  rfl

/-- On any text beginning with `for attribute, value in item.attributes`,
rule 1 fires, consuming the whole 39-character window. -/
theorem rule1_fire_forAttrItem :
    ∀ rest, tryMatch rule1Alts (forAttrItem ++ rest) = some (39, forAttrItemFixed) := by
  intro rest
  have hok : tryAlt (litPat "for attribute, value in item" ++ [none] ++
      litPat "attributes") (forAttrItem ++ rest) = true := by
    rw [tryAlt_append_of_le rest (by decide)]
    decide
  have h := @tryMatch_eq_of_split [] []
    ⟨litPat "for attribute, value in item" ++ [none] ++ litPat "attributes",
      fun m => m.take 24 ++ ('(' :: m.drop 24) ++ ("|default(\x7b\x7d))").toList⟩
    (forAttrItem ++ rest) (by intro a ha; simp at ha) hok
  rw [show (([] : List RuleAlt) ++
      (⟨litPat "for attribute, value in item" ++ [none] ++ litPat "attributes",
        fun m => m.take 24 ++ ('(' :: m.drop 24) ++ ("|default(\x7b\x7d))").toList⟩ :
        RuleAlt) :: []) = rule1Alts from rfl] at h
  rw [h, List.take_append_of_le_length (by decide)]
  rfl

/-- C3 core: rules 1 and 2 cannot overlap an occurrence of the rule-3 literal
(certified by the clash checks), so the occurrence survives to rule 3, which
fires on it; and no rule-3 output contains the literal. -/
theorem applyRules_plusConcat {s : List Char} (h : ContainsSub plusConcat s) :
    ContainsSub tildeConcat (applyRules s) ∧
      ¬ ContainsSub plusConcat (applyRules s) := by
  unfold applyRules
  refine ⟨?_, subScan_rule3_no_plusConcat _⟩
  apply subScan_rule3_fires
  obtain ⟨i1, hca1⟩ := h.elim'
  obtain ⟨i2, hca2⟩ := @subScan_window rule1Alts _ _ _ hca1
    (overlap_sides (by decide) (by decide) (by decide) hca1)
  obtain ⟨i3, hca3⟩ := @subScan_window rule2Alts _ _ _ hca2
    (overlap_sides (by decide) (by decide) (by decide) hca2)
  exact ContainsSub_of_containsAt hca3

/-- C4 core: rule 1 cannot touch an occurrence of `params.legend.text`;
rule 2 fires on it, rewriting it to `(params.legend|default({})).text`, whose
`text` tail no alternative can start in; rule 3 cannot touch the result. -/
theorem applyRules_legendText {s : List Char} (h : ContainsSub legendText s) :
    ContainsSub legendTextFixed (applyRules s) := by
  unfold applyRules
  obtain ⟨i1, hca1⟩ := h.elim'
  obtain ⟨i2, hca2⟩ := @subScan_window rule1Alts _ _ _ hca1
    (overlap_sides (by decide) (by decide) (by decide) hca1)
  have h4 : ContainsSub (legendRepl ++ legendText.drop 14)
      (subScan rule2Alts (subScan rule1Alts s)) :=
    subScan_fire (by decide) (by decide) rule2_fire_legendText
      (htail_of_tailNoStart (by decide)) hca2
      (before_side (by decide) (by decide) hca2)
  rw [show legendRepl ++ legendText.drop 14 = legendTextFixed by decide] at h4
  obtain ⟨i3, hca3⟩ := h4.elim'
  obtain ⟨i4, hca4⟩ := @subScan_window rule3Alts _ _ _ hca3
    (overlap_sides (by decide) (by decide) (by decide) hca3)
  exact ContainsSub_of_containsAt hca4

/-- C5 core: rule 1 fires on an occurrence of
`for attribute, value in item.attributes`, consuming the whole window, and
rules 2 and 3 cannot touch the rewritten text. -/
theorem applyRules_forAttrItem {s : List Char} (h : ContainsSub forAttrItem s) :
    ContainsSub forAttrItemFixed (applyRules s) := by
  unfold applyRules
  obtain ⟨i1, hca1⟩ := h.elim'
  have h2 : ContainsSub (forAttrItemFixed ++ forAttrItem.drop 39)
      (subScan rule1Alts s) :=
    subScan_fire (by decide) (by decide) rule1_fire_forAttrItem
      (fun j hj1 hj2 rest =>
        absurd hj2 (by rw [show forAttrItem.length = 39 from rfl]; omega))
      hca1 (before_side (by decide) (by decide) hca1)
  rw [show forAttrItemFixed ++ forAttrItem.drop 39 = forAttrItemFixed by decide] at h2
  obtain ⟨i2, hca2⟩ := h2.elim'
  obtain ⟨i3, hca3⟩ := @subScan_window rule2Alts _ _ _ hca2
    (overlap_sides (by decide) (by decide) (by decide) hca2)
  obtain ⟨i4, hca4⟩ := @subScan_window rule3Alts _ _ _ hca3
    (overlap_sides (by decide) (by decide) (by decide) hca3)
  exact ContainsSub_of_containsAt hca4

/-- `markupsafe.Markup`: a string marked as pre-escaped safe markup. -/
structure Markup where
  val : String
deriving DecidableEq

/-- The zero-width-space entity inserted by `break_words`. -/
def zwsp : List Char := "&#8203;".toList

/-- Python's `\w` on its ASCII subset: letters, digits and the underscore.
(Python's `str` patterns additionally count non-ASCII word characters; the
general theorems below are parametric in the word-character predicate.) -/
def isWordChar (c : Char) : Bool := c.isAlphanum || c == '_'

/-- Fuelled scan implementing `re.sub(r"([^\w]+)", r"&#8203;\1&#8203;", word)`:
a word character is copied; a non-word character starts a maximal (greedy
`+`) run of non-word characters, which is emitted wrapped in the marker. -/
def breakRunsF (isW : Char → Bool) : Nat → List Char → List Char
  | 0, _ => []
  | _, [] => []
  | fuel + 1, c :: rest =>
    if isW c then c :: breakRunsF isW fuel rest
    else
      zwsp ++ (c :: rest.takeWhile (fun x => !isW x)) ++ zwsp ++
        breakRunsF isW fuel (rest.dropWhile (fun x => !isW x))

def breakRuns (isW : Char → Bool) (s : List Char) : List Char :=
  breakRunsF isW s.length s

/-- `break_words`: wrap every maximal run of non-word characters in zero-width
spaces and return the result as safe markup. -/
def break_words (w : String) : Markup :=
  ⟨String.mk (breakRuns isWordChar w.toList)⟩

/-- The specification's description of the transformation, as a relation: the
output is the input with the marker inserted immediately before and after
every maximal run of non-word characters (`hnext` states maximality: the run
is not followed by a further non-word character). -/
inductive BreakSpec (isW : Char → Bool) : List Char → List Char → Prop where
  | nil : BreakSpec isW [] []
  | word (c : Char) (s t : List Char) (hc : isW c = true)
      (h : BreakSpec isW s t) : BreakSpec isW (c :: s) (c :: t)
  | brk (r s t : List Char) (hr : r ≠ []) (hall : ∀ c ∈ r, isW c = false)
      (hnext : ∀ c, s.head? = some c → isW c = true)
      (h : BreakSpec isW s t) :
      BreakSpec isW (r ++ s) (zwsp ++ r ++ zwsp ++ t)

theorem head_dropWhile_false {p : Char → Bool} :
    ∀ (l : List Char) (c : Char), (l.dropWhile p).head? = some c → p c = false := by
  intro l
  induction l with
  | nil => intro c h; simp [List.dropWhile] at h
  | cons a l' ih =>
    intro c h
    rw [List.dropWhile_cons] at h
    by_cases ha : p a = true
    · rw [if_pos ha] at h
      exact ih c h
    · rw [if_neg ha] at h
      injection h with h'
      subst h'
      exact Bool.not_eq_true _ |>.mp ha

theorem length_dropWhile_le' {p : Char → Bool} :
    ∀ l : List Char, (l.dropWhile p).length ≤ l.length := by
  intro l
  induction l with
  | nil => simp [List.dropWhile]
  | cons a l' ih =>
    rw [List.dropWhile_cons]
    by_cases ha : p a = true
    · rw [if_pos ha]
      exact le_trans ih (by simp)
    · rw [if_neg ha]

theorem breakRunsF_spec (isW : Char → Bool) :
    ∀ (n : Nat) (s : List Char), s.length ≤ n →
      BreakSpec isW s (breakRunsF isW n s) := by
  intro n
  induction n with
  | zero =>
    intro s hs
    have hnil : s = [] := List.eq_nil_of_length_eq_zero (by omega)
    subst hnil
    exact BreakSpec.nil
  | succ n ih =>
    intro s hs
    cases s with
    | nil => exact BreakSpec.nil
    | cons c rest =>
      by_cases hw : isW c = true
      · rw [show breakRunsF isW (n + 1) (c :: rest) =
          c :: breakRunsF isW n rest from by rw [breakRunsF, if_pos hw]]
        exact BreakSpec.word c _ _ hw
          (ih rest (by simp only [List.length_cons] at hs; omega))
      · rw [show breakRunsF isW (n + 1) (c :: rest) =
          zwsp ++ (c :: rest.takeWhile (fun x => !isW x)) ++ zwsp ++
            breakRunsF isW n (rest.dropWhile (fun x => !isW x)) from by
          rw [breakRunsF, if_neg hw]]
        have hsplit : c :: rest =
            (c :: rest.takeWhile (fun x => !isW x)) ++
              rest.dropWhile (fun x => !isW x) := by
          rw [List.cons_append, List.takeWhile_append_dropWhile]
        rw [hsplit]
        apply BreakSpec.brk
        · simp
        · intro x hx
          rcases List.mem_cons.mp hx with hx | hx
          · subst hx
            exact Bool.not_eq_true _ |>.mp hw
          · have := List.mem_takeWhile_imp hx
            simpa using this
        · intro x hx
          have := head_dropWhile_false _ x hx
          simpa using this
        · exact ih _ (le_trans (length_dropWhile_le' rest)
            (by simp only [List.length_cons] at hs; omega))

/-- `breakRuns` satisfies the maximal-run specification, for any word-character
predicate. -/
theorem breakRuns_spec (isW : Char → Bool) (s : List Char) :
    BreakSpec isW s (breakRuns isW s) :=
  breakRunsF_spec isW s.length s le_rfl

/-- Django `QueryDict` contents: an insertion-ordered mapping from keys to
lists of values. -/
abbrev QueryDict := List (String × List String)

/-- `updated[key] = value` on a `QueryDict`: replace the value list of an
existing key in place, else append the new key. -/
def qdSet : QueryDict → String → String → QueryDict
  | [], k, v => [(k, [v])]
  | p :: d, k, v => if p.1 == k then (k, [v]) :: d else p :: qdSet d k v

/-- The `for key, value in kwargs.items(): updated[key] = value` loop. -/
def qdApply (d : QueryDict) (kw : List (String × String)) : QueryDict :=
  kw.foldl (fun acc p => qdSet acc p.1 p.2) d

def hexDigit (n : Nat) : Char :=
  if n < 10 then Char.ofNat ('0'.toNat + n) else Char.ofNat ('A'.toNat + (n - 10))

def quoteByte (b : UInt8) : List Char :=
  ['%', hexDigit (b.toNat / 16), hexDigit (b.toNat % 16)]

/-- `urllib.parse.quote_plus` on one character: unreserved characters pass
through, a space becomes `+`, anything else is percent-encoded per UTF-8
byte. -/
def quotePlusChar (c : Char) : List Char :=
  if c.isAlphanum || c == '_' || c == '.' || c == '-' || c == '~' then [c]
  else if c == ' ' then ['+']
  else (String.utf8EncodeChar c).bind quoteByte

def quotePlus (s : String) : String :=
  String.mk (s.toList.bind quotePlusChar)

/-- `QueryDict.urlencode`: one `key=value` pair per value, joined with `&`,
in mapping order. -/
def urlencodeQD (d : QueryDict) : String :=
  String.intercalate "&"
    (d.bind fun p => p.2.map fun v => quotePlus p.1 ++ "=" ++ quotePlus v)

/-- `query_transform(request, **kwargs)`.  The first component is the returned
query string; the second is the request's own query mapping after the call
(the function copies the mapping before mutating, so it returns the request
untouched). -/
def query_transform (request : QueryDict) (kwargs : List (String × String)) :
    String × QueryDict :=
  let updated := request
  let updated := qdApply updated kwargs
  (urlencodeQD updated, request)

theorem qdSet_lookup_self : ∀ (d : QueryDict) (k v : String),
    (qdSet d k v).lookup k = some [v] := by
  intro d k v
  induction d with
  | nil => simp [qdSet, List.lookup]
  | cons p d' ih =>
    rw [qdSet]
    by_cases hk : (p.1 == k) = true
    · rw [if_pos hk]
      simp [List.lookup]
    · rw [if_neg hk]
      have hne : (k == p.1) = false := by
        rw [beq_iff_eq] at hk
        exact beq_eq_false_iff_ne.mpr (fun hc => hk hc.symm)
      simp only [List.lookup, hne]
      exact ih

theorem qdSet_lookup_ne : ∀ (d : QueryDict) (k v : String) (k' : String),
    k' ≠ k → (qdSet d k v).lookup k' = d.lookup k' := by
  intro d k v k' hne
  induction d with
  | nil =>
    have h1 : (k' == k) = false := beq_eq_false_iff_ne.mpr hne
    simp only [qdSet, List.lookup, h1]
  | cons p d' ih =>
    rw [qdSet]
    by_cases hk : (p.1 == k) = true
    · rw [if_pos hk]
      rw [beq_iff_eq] at hk
      have h1 : (k' == k) = false := beq_eq_false_iff_ne.mpr hne
      have h2 : (k' == p.1) = false := beq_eq_false_iff_ne.mpr (by rw [hk]; exact hne)
      simp only [List.lookup, h1, h2]
    · rw [if_neg hk]
      cases hk' : (k' == p.1) with
      | true => simp only [List.lookup, hk']
      | false =>
        simp only [List.lookup, hk']
        exact ih

theorem qdApply_lookup_notin :
    ∀ (kw : List (String × String)) (d : QueryDict) (k : String),
      k ∉ kw.map Prod.fst → (qdApply d kw).lookup k = d.lookup k := by
  intro kw
  induction kw with
  | nil => intro d k _; rfl
  | cons p kw' ih =>
    intro d k hk
    simp only [List.map_cons, List.mem_cons] at hk
    push_neg at hk
    show (qdApply (qdSet d p.1 p.2) kw').lookup k = d.lookup k
    rw [ih _ k hk.2, qdSet_lookup_ne _ _ _ _ hk.1]

theorem qdApply_lookup_mem :
    ∀ (kw : List (String × String)) (d : QueryDict) (k v : String),
      (kw.map Prod.fst).Nodup → (k, v) ∈ kw →
      (qdApply d kw).lookup k = some [v] := by
  intro kw
  induction kw with
  | nil => intro d k v _ h; simp at h
  | cons p kw' ih =>
    intro d k v hnd hm
    simp only [List.map_cons, List.nodup_cons] at hnd
    rcases List.mem_cons.mp hm with heq | hmem
    · have hk : p.1 = k := by rw [← heq]
      have hv : p.2 = v := by rw [← heq]
      show (qdApply (qdSet d p.1 p.2) kw').lookup k = some [v]
      rw [qdApply_lookup_notin kw' _ k (by rw [← hk]; exact hnd.1), hk, hv,
        qdSet_lookup_self]
    · show (qdApply (qdSet d p.1 p.2) kw').lookup k = some [v]
      exact ih _ k v hnd.2 hmem

/-- A compilation extension reference: the repository's own
`GovukFrontendExtension`, or any other extension class a caller may supply. -/
inductive ExtensionRef where
  | govukFrontendExtension
  | other (clsName : String)
deriving DecidableEq

/-- The values registered in the template environment's filter and global
tables: references to the helper functions and framework callables, the `env`
string, and the `render_bundle` callable with its bound first argument
(`functools` partial application of the globals table). -/
inductive JinjaValue where
  | breakWordsFn
  | queryTransformFn
  | crispyFn
  | envString (s : String)
  | getMessagesFn
  | localtimeFn
  | pluralizeFn
  | settingsObj
  | staticFn
  | urlFn
  | webpackStaticFn
  | renderBundleBound (boundGlobals : List (String × JinjaValue))

/-- A constructed template environment: its extensions and its filter and
global registration tables. -/
structure JinjaEnvironment where
  extensions : List ExtensionRef
  filters : List (String × JinjaValue)
  globals : List (String × JinjaValue)

/-- `GovukFrontendEnvironment.__init__`:
`kwargs.setdefault("extensions", [GovukFrontendExtension])` — the `extensions`
keyword actually handed to the base constructor.  `none` models a keyword
configuration without an `extensions` entry. -/
def govukFrontendEnvironmentExtensions :
    Option (List ExtensionRef) → List ExtensionRef
  | none => [ExtensionRef.govukFrontendExtension]
  | some exts => exts

/-- Modelled from the spec: the third-party base `Environment` constructor
(`govuk_frontend_jinja.templates.Environment`, itself a `jinja2.Environment`)
is not part of this repository.  Per the spec's data model ("Global
registration table ... owned exclusively by the Environment instance") and
interface table, the base environment records the extensions it is given and
starts with empty filter and global tables. -/
def govukFrontendEnvironment (extensionsArg : Option (List ExtensionRef)) :
    JinjaEnvironment :=
  { extensions := govukFrontendEnvironmentExtensions extensionsArg,
    filters := [], globals := [] }

/-- Python `dict.__setitem__` on an insertion-ordered association list. -/
def dictSet : List (String × JinjaValue) → String → JinjaValue →
    List (String × JinjaValue)
  | [], k, v => [(k, v)]
  | p :: d, k, v => if p.1 == k then (k, v) :: d else p :: dictSet d k v

/-- Python `dict.update` with a list of key-value pairs. -/
def dictUpdate (d : List (String × JinjaValue))
    (upds : List (String × JinjaValue)) : List (String × JinjaValue) :=
  upds.foldl (fun acc p => dictSet acc p.1 p.2) d

/-- The `environment(**options)` builder: construct a
`GovukFrontendEnvironment`, register the `localtime` filter, register the
eleven globals (reading `ENV` from the process environment, default `"dev"`),
then bind `render_bundle` to the globals table. -/
def environment (envVarENV : Option String)
    (extensionsArg : Option (List ExtensionRef)) : JinjaEnvironment :=
  let env := govukFrontendEnvironment extensionsArg
  let env := { env with
    filters := dictUpdate env.filters [("localtime", JinjaValue.localtimeFn)] }
  let g := dictUpdate env.globals
    [("break_words", JinjaValue.breakWordsFn),
     ("query_transform", JinjaValue.queryTransformFn),
     ("crispy", JinjaValue.crispyFn),
     ("env", JinjaValue.envString (envVarENV.getD "dev")),
     ("get_messages", JinjaValue.getMessagesFn),
     ("localtime", JinjaValue.localtimeFn),
     ("pluralize", JinjaValue.pluralizeFn),
     ("settings", JinjaValue.settingsObj),
     ("static", JinjaValue.staticFn),
     ("url", JinjaValue.urlFn),
     ("webpack_static", JinjaValue.webpackStaticFn)]
  { env with globals := dictSet g "render_bundle" (JinjaValue.renderBundleBound g) }

/-- C1 (counterexample): a call whose keyword configuration supplies its own
`extensions` list does NOT get the Preprocessor extension installed —
`kwargs.setdefault` leaves a caller-supplied list untouched, so
`GovukFrontendExtension` is absent from the resulting environment. -/
theorem c1_counterexample :
    ExtensionRef.govukFrontendExtension ∉
      (environment none (some [ExtensionRef.other "jinja2.ext.i18n"])).extensions := by
  decide

/-- C1 (amended): when the keyword configuration has no `extensions` entry,
the environment is constructed with exactly `[GovukFrontendExtension]`; when
the caller supplies an `extensions` list, that list is forwarded unchanged
and the Preprocessor extension is not added. -/
theorem c1_amended_extensions :
    (∀ v, (environment v none).extensions = [ExtensionRef.govukFrontendExtension]) ∧
    (∀ v exts, (environment v (some exts)).extensions = exts) ∧
    govukFrontendEnvironmentExtensions none = [ExtensionRef.govukFrontendExtension] ∧
    (∀ exts, govukFrontendEnvironmentExtensions (some exts) = exts) :=
  ⟨fun _ => rfl, fun _ _ => rfl, rfl, fun _ => rfl⟩

/-- C2: for any filename that does not pass the `.njk` gate, the
preprocessor's output equals the output of the baseline upstream translation
step alone (both return the source unchanged, with none of the three
pattern-substitution rules applied). -/
theorem c2_non_njk_baseline_only :
    ∀ (t : List Char → List Char) (source name : List Char)
      (filename : Option (List Char)), njkGate filename = false →
      preprocess (superPreprocess t) source name filename =
        superPreprocess t source name filename ∧
      preprocess (superPreprocess t) source name filename = source := by
  intro t source name filename h
  unfold preprocess superPreprocess
  rw [h]
  exact ⟨rfl, rfl⟩

theorem c2_witness :
    njkGate (some "template.html".toList) = false ∧
    preprocess (superPreprocess id) "params.legend.text".toList []
        (some "template.html".toList) =
      superPreprocess id "params.legend.text".toList []
        (some "template.html".toList) ∧
    preprocess (superPreprocess id) "params.legend.text".toList []
        (some "template.html".toList) = "params.legend.text".toList :=
  ⟨by decide,
   (c2_non_njk_baseline_only id "params.legend.text".toList []
     (some "template.html".toList) (by decide)).1,
   (c2_non_njk_baseline_only id "params.legend.text".toList []
     (some "template.html".toList) (by decide)).2⟩

/-- C3: for every source processed as a `.njk` file whose post-delegation text
contains `+ (params.maxlength or params.maxwords) +`, the preprocessor output
contains `~ (params.maxlength or params.maxwords) ~` and no occurrence of the
original substring. -/
theorem c3_plus_concat_replaced :
    ∀ (sp : List Char → List Char → Option (List Char) → List Char)
      (source name : List Char) (filename : Option (List Char)),
      njkGate filename = true →
      ContainsSub plusConcat (sp source name filename) →
      ContainsSub tildeConcat (preprocess sp source name filename) ∧
      ¬ ContainsSub plusConcat (preprocess sp source name filename) := by
  intro sp source name filename hg hc
  unfold preprocess
  rw [hg, if_pos rfl]
  exact applyRules_plusConcat hc

theorem c3_witness :
    njkGate (some "macro.njk".toList) = true ∧
    ContainsSub plusConcat plusConcat ∧
    (ContainsSub tildeConcat
        (preprocess (fun s _ _ => s) plusConcat [] (some "macro.njk".toList)) ∧
      ¬ ContainsSub plusConcat
        (preprocess (fun s _ _ => s) plusConcat [] (some "macro.njk".toList))) :=
  ⟨by decide, by decide,
   c3_plus_concat_replaced (fun s _ _ => s) plusConcat []
     (some "macro.njk".toList) (by decide) (by decide)⟩

/-- C4: for every source processed as a `.njk` file whose post-delegation text
contains `params.legend.text`, the preprocessor output contains
`(params.legend|default({})).text`. -/
theorem c4_legend_guard :
    ∀ (sp : List Char → List Char → Option (List Char) → List Char)
      (source name : List Char) (filename : Option (List Char)),
      njkGate filename = true →
      ContainsSub legendText (sp source name filename) →
      ContainsSub legendTextFixed (preprocess sp source name filename) := by
  intro sp source name filename hg hc
  unfold preprocess
  rw [hg, if_pos rfl]
  exact applyRules_legendText hc

theorem c4_witness :
    njkGate (some "fieldset.njk".toList) = true ∧
    ContainsSub legendText legendText ∧
    ContainsSub legendTextFixed
      (preprocess (fun s _ _ => s) legendText [] (some "fieldset.njk".toList)) :=
  ⟨by decide, by decide,
   c4_legend_guard (fun s _ _ => s) legendText []
     (some "fieldset.njk".toList) (by decide) (by decide)⟩

/-- C5: for every source processed as a `.njk` file whose post-delegation text
contains `for attribute, value in item.attributes`, the preprocessor output
contains `for attribute, value in (item.attributes|default({}))`. -/
theorem c5_iteration_guard :
    ∀ (sp : List Char → List Char → Option (List Char) → List Char)
      (source name : List Char) (filename : Option (List Char)),
      njkGate filename = true →
      ContainsSub forAttrItem (sp source name filename) →
      ContainsSub forAttrItemFixed (preprocess sp source name filename) := by
  intro sp source name filename hg hc
  unfold preprocess
  rw [hg, if_pos rfl]
  exact applyRules_forAttrItem hc

theorem c5_witness :
    njkGate (some "checkboxes.njk".toList) = true ∧
    ContainsSub forAttrItem forAttrItem ∧
    ContainsSub forAttrItemFixed
      (preprocess (fun s _ _ => s) forAttrItem [] (some "checkboxes.njk".toList)) :=
  ⟨by decide, by decide,
   c5_iteration_guard (fun s _ _ => s) forAttrItem []
     (some "checkboxes.njk".toList) (by decide) (by decide)⟩

/-- C6: `break_words` inserts the zero-width-space marker immediately before
and after every maximal run of non-word characters (stated parametrically in
the word-character predicate, matching the code's `\w`) and returns safe
markup; in particular on `"hello/goodbye"` it yields the markup
`"hello&#8203;/&#8203;goodbye"`. -/
theorem c6_break_words :
    (∀ (isW : Char → Bool) (s : List Char), BreakSpec isW s (breakRuns isW s)) ∧
    break_words "hello/goodbye" = ⟨"hello&#8203;/&#8203;goodbye"⟩ :=
  ⟨breakRuns_spec, by decide⟩

/-- C7: `query_transform` leaves the request's own query mapping unchanged and
returns the URL-encoded query string of a copy in which every override key is
set to its supplied value and every other key keeps its original value; with
existing query `a=1&b=2` and override `b=3` the result is `a=1&b=3`. -/
theorem c7_query_transform :
    ∀ (req : QueryDict) (kw : List (String × String)),
      (kw.map Prod.fst).Nodup →
      (query_transform req kw).2 = req ∧
      (query_transform req kw).1 = urlencodeQD (qdApply req kw) ∧
      (∀ k v, (k, v) ∈ kw → (qdApply req kw).lookup k = some [v]) ∧
      (∀ k, k ∉ kw.map Prod.fst → (qdApply req kw).lookup k = req.lookup k) ∧
      (query_transform [("a", ["1"]), ("b", ["2"])] [("b", "3")]).1 = "a=1&b=3" := by
  intro req kw hnd
  refine ⟨rfl, rfl, ?_, ?_, ?_⟩
  · intro k v hm
    exact qdApply_lookup_mem kw req k v hnd hm
  · intro k hk
    exact qdApply_lookup_notin kw req k hk
  · decide

theorem c7_witness :
    (([("b", "3")] : List (String × String)).map Prod.fst).Nodup ∧
    (qdApply [("a", ["1"]), ("b", ["2"])] [("b", "3")]).lookup "b" = some ["3"] ∧
    (qdApply [("a", ["1"]), ("b", ["2"])] [("b", "3")]).lookup "a" =
      ([("a", ["1"]), ("b", ["2"])] : QueryDict).lookup "a" ∧
    (query_transform [("a", ["1"]), ("b", ["2"])] [("b", "3")]).2 =
      [("a", ["1"]), ("b", ["2"])] :=
  ⟨by decide,
   (c7_query_transform [("a", ["1"]), ("b", ["2"])] [("b", "3")]
     (by decide)).2.2.1 "b" "3" (by decide),
   (c7_query_transform [("a", ["1"]), ("b", ["2"])] [("b", "3")]
     (by decide)).2.2.2.1 "a" (by decide),
   (c7_query_transform [("a", ["1"]), ("b", ["2"])] [("b", "3")]
     (by decide)).1⟩

/-- C8: two sequential environment constructions with the same keyword
configuration expose identical global-name (and filter-name) tables; each
instance's `env` global is the `ENV` value read at its own construction
(literal `"dev"` when unset), so changing `ENV` between the constructions
affects only the later instance. -/
theorem c8_env_construction :
    ∀ (e₁ e₂ : Option String) (ext : Option (List ExtensionRef)),
      (environment e₁ ext).globals.map Prod.fst =
        (environment e₂ ext).globals.map Prod.fst ∧
      (environment e₁ ext).filters.map Prod.fst =
        (environment e₂ ext).filters.map Prod.fst ∧
      (environment e₁ ext).globals.lookup "env" =
        some (JinjaValue.envString (e₁.getD "dev")) ∧
      (environment e₂ ext).globals.lookup "env" =
        some (JinjaValue.envString (e₂.getD "dev")) ∧
      (environment none ext).globals.lookup "env" =
        some (JinjaValue.envString "dev") :=
  fun _ _ _ => ⟨rfl, rfl, rfl, rfl, rfl⟩

/-- C9: every constructed environment exposes exactly the twelve listed global
names (in registration order) and the single `localtime` filter, with
`localtime` available both as a filter and as a global. -/
theorem c9_exposed_names :
    ∀ (v : Option String) (ext : Option (List ExtensionRef)),
      (environment v ext).globals.map Prod.fst =
        ["break_words", "query_transform", "crispy", "env", "get_messages",
         "localtime", "pluralize", "settings", "static", "url",
         "webpack_static", "render_bundle"] ∧
      (environment v ext).filters.map Prod.fst = ["localtime"] ∧
      (environment v ext).globals.lookup "localtime" =
        some JinjaValue.localtimeFn ∧
      (environment v ext).filters.lookup "localtime" =
        some JinjaValue.localtimeFn :=
  fun _ _ => ⟨rfl, rfl, rfl, rfl⟩

/-- C10: the allow-list dots are unescaped regex metacharacters: the text
`item-hint.text` contains none of the ten allow-listed dotted names literally,
yet the attribute-access guard rewrites it to `(item-hint|default({})).text`
(the wildcard dot of `item.hint` matches the `-`). -/
theorem c10_unescaped_dot_rewrites :
    njkGate (some "hint.njk".toList) = true ∧
    ¬ ContainsSub "cell.attributes".toList "item-hint.text".toList ∧
    ¬ ContainsSub "item.conditional".toList "item-hint.text".toList ∧
    ¬ ContainsSub "item.hint".toList "item-hint.text".toList ∧
    ¬ ContainsSub "item.label".toList "item-hint.text".toList ∧
    ¬ ContainsSub "params.attributes".toList "item-hint.text".toList ∧
    ¬ ContainsSub "params.countMessage".toList "item-hint.text".toList ∧
    ¬ ContainsSub "params.formGroup".toList "item-hint.text".toList ∧
    ¬ ContainsSub "params.legend".toList "item-hint.text".toList ∧
    ¬ ContainsSub "params.prefix".toList "item-hint.text".toList ∧
    ¬ ContainsSub "params.suffix".toList "item-hint.text".toList ∧
    preprocess (fun s _ _ => s) "item-hint.text".toList []
        (some "hint.njk".toList) =
      "(item-hint|default(\x7b\x7d)).text".toList := by
  refine ⟨by decide, by decide, by decide, by decide, by decide, by decide,
    by decide, by decide, by decide, by decide, by decide, by decide⟩
